import Mathlib

/-!
Verification development for the PatentDiscoverySystem data pipeline.

The pipeline has four embedded components, each translated from the Python
source of the repository:

* keyword extraction (extract_keywords in data-pipeline/ingestion.py),
* paginated fetching (USPTOIngestionService.fetch_patents_by_query),
* record normalization (PatentParserService in data-pipeline/parser_service.py),
* phased persistence (PostgresLoader in data-pipeline/postgres_loader.py).

Python strings are modelled by Lean strings with ASCII character classes
(the behaviour the claims exercise is ASCII); database tables are modelled
as row lists; the connection and transaction protocol of the loader is
modelled by explicit committed-state passing with a fault-injection
parameter standing for a psycopg2.Error raised inside a given phase.
-/

/-! ## Character-level helpers -/

/-- ASCII whitespace: the characters Python str.split with no arguments
splits on and the regex class backslash-s matches (ASCII fragment). -/
def isPySpace (c : Char) : Bool :=
  c = ' ' || c = '\t' || c = '\n' || c = '\r' || c = '\x0b' || c = '\x0c'

/-- ASCII word characters: the regex class backslash-w restricted to ASCII
(letters, digits, underscore).  Python additionally counts non-ASCII letters
as word characters; no claim depends on non-ASCII input. -/
def isWordChar (c : Char) : Bool :=
  c.isAlpha || c.isDigit || c = '_'

/-- Python str.lower on a single character (ASCII fragment). -/
def pyToLower (c : Char) : Char :=
  if 'A' ≤ c && c ≤ 'Z' then Char.ofNat (c.toNat + 32) else c

/-- Python str.strip with no arguments on a character list: remove leading
and trailing whitespace. -/
def pyStripChars (l : List Char) : List Char :=
  ((l.dropWhile isPySpace).reverse.dropWhile isPySpace).reverse

/-- Python str.strip with no arguments. -/
def pyStrip (s : String) : String :=
  String.mk (pyStripChars s.data)

/-- Worker for Python str.split with no arguments: split on whitespace runs,
discarding empty pieces.  The second argument holds the token being
accumulated, in reverse. -/
def pySplitGo : List Char → List Char → List (List Char)
  | [], cur => if cur = [] then [] else [cur.reverse]
  | c :: cs, cur =>
    if isPySpace c then
      if cur = [] then pySplitGo cs [] else cur.reverse :: pySplitGo cs []
    else pySplitGo cs (c :: cur)

/-- Python " ".join on a list of strings. -/
def joinSpace (ks : List String) : String :=
  String.mk (List.intercalate [' '] (ks.map String.data))

/-- Python truthiness of an optional string: a missing value and the empty
string are falsy. -/
def truthy : Option String → Bool
  | none => false
  | some s => s ≠ ""

/-- The value of an optional string under a dict.get with default empty
string. -/
def optStr (o : Option String) : String := o.getD ""

/-! ## Keyword extraction (extract_keywords, data-pipeline/ingestion.py) -/

/-- The fixed stop-word set of extract_keywords. -/
def stopwords : List String :=
  ["a", "an", "and", "are", "as", "at", "be", "by", "for", "from",
   "has", "he", "in", "is", "it", "its", "of", "on", "that", "the",
   "to", "was", "will", "with", "would", "could", "should", "can",
   "i", "my", "we", "our", "this", "these", "those", "am", "been",
   "have", "had", "do", "does", "did", "but", "if", "or", "because",
   "until", "while", "about", "into", "through", "want", "need"]

/-- The substitution step of extract_keywords: every character that is not a
word character, whitespace, or a hyphen becomes a space. -/
def cleanChar (c : Char) : Char :=
  if isWordChar c || isPySpace c || c = '-' then c else ' '

/-- First-occurrence-preserving deduplication, mirroring the seen-set loop of
extract_keywords; the seen set is modelled as the list of words already
kept. -/
def dedupGo (seen : List String) : List String → List String
  | [] => []
  | w :: ws => if w ∈ seen then dedupGo seen ws else w :: dedupGo (w :: seen) ws

/-- The lower-cased input text of extract_keywords. -/
def loweredText (user_idea : String) : List Char :=
  user_idea.data.map pyToLower

/-- The text after the regex substitution of extract_keywords. -/
def cleanedText (user_idea : String) : List Char :=
  (loweredText user_idea).map cleanChar

/-- The whitespace-split word list of extract_keywords. -/
def wordsOf (user_idea : String) : List String :=
  (pySplitGo (cleanedText user_idea) []).map String.mk

/-- The filtered keyword list of extract_keywords: drop stop words and words
shorter than 3 characters. -/
def keywordsOf (user_idea : String) : List String :=
  (wordsOf user_idea).filter
    (fun w => decide (w ∉ stopwords) && decide (3 ≤ w.length))

/-- The token list of extract_keywords just before the final join:
deduplicate keeping first occurrences, then truncate to max_keywords. -/
def keywordList (user_idea : String) (max_keywords : Nat) : List String :=
  (dedupGo [] (keywordsOf user_idea)).take max_keywords

/-- extract_keywords (data-pipeline/ingestion.py): turn free text into a
space-joined query string of at most max_keywords keywords. -/
def extract_keywords (user_idea : String) (max_keywords : Nat := 10) : String :=
  joinSpace (keywordList user_idea max_keywords)

/-! ## Paginated fetching (USPTOIngestionService.fetch_patents_by_query) -/

/-- One parsed JSON response body of the search API, restricted to the three
keys the fetcher reads, each possibly absent.  The count key is only logged
by the source, never used.  The type parameter is the type of one raw patent
record. -/
structure ApiResponse (α : Type) where
  patents : Option (List α)
  count : Option Nat
  total_pages : Option Nat
deriving DecidableEq

/-- Outcome of one page request: a requests.RequestException (network error,
timeout, or non-2xx status via raise_for_status), a ValueError from
response.json on malformed JSON, or a parsed body. -/
inductive PageResult (α : Type) where
  | requestError : PageResult α
  | jsonError : PageResult α
  | success (body : ApiResponse α) : PageResult α
deriving DecidableEq

/-- The page-2-onward loop of fetch_patents_by_query.  Returns the pages
requested by the loop and either the accumulated patent list or an error
that propagates to the except clauses of the caller.  A page whose body
lacks the patents key contributes nothing but does not stop the loop. -/
def fetchLoop {α : Type} (env : Nat → PageResult α) :
    List Nat → List α → List Nat × Except Unit (List α)
  | [], acc => ([], Except.ok acc)
  | p :: rest, acc =>
    match env p with
    | PageResult.requestError => ([p], Except.error ())
    | PageResult.jsonError => ([p], Except.error ())
    | PageResult.success body =>
      let acc2 := match body.patents with
        | some ps => acc ++ ps
        | none => acc
      let r := fetchLoop env rest acc2
      (p :: r.1, r.2)

/-- fetch_patents_by_query (data-pipeline/ingestion.py), instrumented to also
return the pages requested, in request order.  The environment maps a page
number to the outcome of requesting that page.  Any request or JSON error is
caught by the except clauses, which return an empty list; a missing patents
key on page 1 skips the whole pagination block; a missing total_pages key
defaults to 1. -/
def fetchResult {α : Type} (env : Nat → PageResult α) (max_pages : Nat) :
    List Nat × List α :=
  match env 1 with
  | PageResult.requestError => ([1], [])
  | PageResult.jsonError => ([1], [])
  | PageResult.success body =>
    match body.patents with
    | none => ([1], [])
    | some patents =>
      let total_pages := body.total_pages.getD 1
      let pages_to_fetch := min max_pages total_pages
      let r := fetchLoop env (List.range' 2 (pages_to_fetch - 1)) patents
      (1 :: r.1,
       match r.2 with
       | Except.ok all => all
       | Except.error _ => [])

/-- The patent list returned by fetch_patents_by_query. -/
def fetch_patents_by_query {α : Type} (env : Nat → PageResult α)
    (max_pages : Nat := 5) : List α :=
  (fetchResult env max_pages).2

/-- The pages fetch_patents_by_query requests, in request order. -/
def requestedPages {α : Type} (env : Nat → PageResult α)
    (max_pages : Nat := 5) : List Nat :=
  (fetchResult env max_pages).1

/-! ## Dates (PatentParserService._parse_date) -/

/-- A calendar date as produced by datetime.date. -/
structure PyDate where
  year : Nat
  month : Nat
  day : Nat
deriving DecidableEq

def isLeapYear (y : Nat) : Bool :=
  y % 4 = 0 && (y % 100 ≠ 0 || y % 400 = 0)

def daysInMonth (y m : Nat) : Nat :=
  if m = 2 then (if isLeapYear y then 29 else 28)
  else if m = 4 || m = 6 || m = 9 || m = 11 then 30
  else 31

/-- datetime validation: the datetime constructor raises ValueError outside
these bounds (MINYEAR 1, MAXYEAR 9999, day within the month). -/
def mkDate (y m d : Nat) : Option PyDate :=
  if 1 ≤ y ∧ y ≤ 9999 ∧ 1 ≤ m ∧ m ≤ 12 ∧ 1 ≤ d ∧ d ≤ daysInMonth y m then
    some ⟨y, m, d⟩
  else none

def digitVal (c : Char) : Nat := c.toNat - 48

/-- The month fragment of the regex CPython strptime builds for the directive
percent-m: a two-digit month 10-12 or 01-09, else a one-digit month 1-9,
alternatives tried in this order with backtracking. -/
def monthCands : List Char → List (Nat × List Char)
  | c1 :: c2 :: rest =>
    (if c1 = '1' && ('0' ≤ c2 && c2 ≤ '2') then [(10 + digitVal c2, rest)] else []) ++
    (if c1 = '0' && ('1' ≤ c2 && c2 ≤ '9') then [(digitVal c2, rest)] else []) ++
    (if '1' ≤ c1 && c1 ≤ '9' then [(digitVal c1, c2 :: rest)] else [])
  | [c1] => if '1' ≤ c1 && c1 ≤ '9' then [(digitVal c1, [])] else []
  | [] => []

/-- The day fragment of the strptime regex for the directive percent-d:
30-31, 10-29, 01-09, else a one-digit day 1-9, in this order. -/
def dayCands : List Char → List (Nat × List Char)
  | c1 :: c2 :: rest =>
    (if c1 = '3' && (c2 = '0' || c2 = '1') then [(30 + digitVal c2, rest)] else []) ++
    (if (c1 = '1' || c1 = '2') && c2.isDigit then
      [(10 * digitVal c1 + digitVal c2, rest)] else []) ++
    (if c1 = '0' && ('1' ≤ c2 && c2 ≤ '9') then [(digitVal c2, rest)] else []) ++
    (if '1' ≤ c1 && c1 ≤ '9' then [(digitVal c1, c2 :: rest)] else [])
  | [c1] => if '1' ≤ c1 && c1 ≤ '9' then [(digitVal c1, [])] else []
  | [] => []

/-- The year fragment of the strptime regex for the directive percent-Y:
exactly four digits. -/
def yearParse : List Char → Option (Nat × List Char)
  | c1 :: c2 :: c3 :: c4 :: rest =>
    if c1.isDigit && c2.isDigit && c3.isDigit && c4.isDigit then
      some (1000 * digitVal c1 + 100 * digitVal c2 + 10 * digitVal c3 + digitVal c4,
            rest)
    else none
  | _ => none

/-- Full-string regex match of the strptime format year-month-day with
literal hyphens, in backtracking order. -/
def matchYMDdash (l : List Char) : Option (Nat × Nat × Nat) :=
  match yearParse l with
  | none => none
  | some (y, r1) =>
    match r1 with
    | '-' :: r2 =>
      ((monthCands r2).filterMap (fun mc =>
        match mc.2 with
        | '-' :: r3 =>
          ((dayCands r3).filterMap (fun dc =>
            if dc.2 = [] then some (y, mc.1, dc.1) else none)).head?
        | _ => none)).head?
    | _ => none

/-- Full-string regex match of the compact strptime format year-month-day
with no separators, in backtracking order. -/
def matchYMDcompact (l : List Char) : Option (Nat × Nat × Nat) :=
  match yearParse l with
  | none => none
  | some (y, r1) =>
    ((monthCands r1).filterMap (fun mc =>
      ((dayCands mc.2).filterMap (fun dc =>
        if dc.2 = [] then some (y, mc.1, dc.1) else none)).head?)).head?

/-- PatentParserService._parse_date: a falsy input yields nothing; otherwise
try the dashed format, then the compact format.  A regex match whose
components do not form a valid calendar date raises ValueError in the
datetime constructor, which the source catches exactly like a failed
match of that format. -/
def _parse_date (date_str : Option String) : Option PyDate :=
  match date_str with
  | none => none
  | some s =>
    if s = "" then none
    else
      match matchYMDdash s.data with
      | some (y, m, d) =>
        match mkDate y m d with
        | some dt => some dt
        | none =>
          match matchYMDcompact s.data with
          | some (y2, m2, d2) => mkDate y2 m2 d2
          | none => none
      | none =>
        match matchYMDcompact s.data with
        | some (y, m, d) => mkDate y m d
        | none => none

/-! ## Record normalization (PatentParserService, data-pipeline/parser_service.py) -/

structure RawAssignee where
  assignee_organization : Option String
  assignee_first_name : Option String
  assignee_last_name : Option String
deriving DecidableEq

structure RawInventor where
  inventor_name_first : Option String
  inventor_name_last : Option String
deriving DecidableEq

structure RawClaim where
  claim_number : Option Int
  claim_text : Option String
deriving DecidableEq

structure RawCited where
  cited_patent_number : Option String
deriving DecidableEq

structure RawCitedBy where
  citedby_patent_number : Option String
deriving DecidableEq

/-- One raw record from the search service, restricted to the keys the
parser reads.  An absent key is modelled as a missing value (the parser
treats a present-but-null value identically), and the list-valued keys
default to empty lists exactly as in the source dict.get calls. -/
structure RawPatent where
  patent_number : Option String
  patent_title : Option String
  patent_abstract : Option String
  patent_date : Option String
  app_date : Option String
  assignees : List RawAssignee
  inventors : List RawInventor
  claims : List RawClaim
  cited_patents : List RawCited
  citedby_patents : List RawCitedBy
deriving DecidableEq

structure ParsedPatent where
  patent_number : String
  title : String
  abstract : Option String
  filing_date : Option PyDate
  grant_date : Option PyDate
  assignee_name : Option String
  inventor_names : Option String
  raw_data : RawPatent
deriving DecidableEq

structure ParsedClaim where
  patent_number : String
  claim_number : Int
  claim_text : String
deriving DecidableEq

structure ParsedCitation where
  citing_patent : String
  cited_patent : String
  citation_type : String
deriving DecidableEq

/-- Assignee resolution chain of _parse_patent_metadata: first assignee
organization when truthy, else the stripped first-plus-last individual name,
else nothing. -/
def assigneeNameOf (assignees : List RawAssignee) : Option String :=
  match assignees with
  | [] => none
  | a :: _ =>
    if truthy a.assignee_organization then a.assignee_organization
    else
      let nm := pyStrip (optStr a.assignee_first_name ++ " " ++
        optStr a.assignee_last_name)
      if nm = "" then none else some nm

/-- Inventor name join of _parse_patent_metadata: nothing when the inventor
list is empty, otherwise the comma join over inventors having at least one
truthy name part. -/
def inventorNamesOf (inventors : List RawInventor) : Option String :=
  match inventors with
  | [] => none
  | _ :: _ =>
    some (String.intercalate ", "
      ((inventors.filter (fun inv =>
          truthy inv.inventor_name_first || truthy inv.inventor_name_last)).map
        (fun inv => pyStrip (optStr inv.inventor_name_first ++ " " ++
          optStr inv.inventor_name_last))))

/-- PatentParserService._parse_patent_metadata: a record with a falsy patent
number yields nothing. -/
def _parse_patent_metadata (raw : RawPatent) : Option ParsedPatent :=
  if truthy raw.patent_number then
    some { patent_number := optStr raw.patent_number
         , title := raw.patent_title.getD "Untitled"
         , abstract := raw.patent_abstract
         , grant_date := _parse_date raw.patent_date
         , filing_date := _parse_date raw.app_date
         , assignee_name := assigneeNameOf raw.assignees
         , inventor_names := inventorNamesOf raw.inventors
         , raw_data := raw }
  else none

/-- The claim loop of _parse_claims: the counter is the 1-based enumerate
index over the raw claim list, advancing over dropped claims too; a claim
with falsy text is dropped, and a kept claim takes its explicit number when
present, else the counter. -/
def parseClaimsGo (pn : String) : Nat → List RawClaim → List ParsedClaim
  | _, [] => []
  | idx, c :: cs =>
    if truthy c.claim_text then
      { patent_number := pn
      , claim_number := c.claim_number.getD (idx : Int)
      , claim_text := pyStrip (optStr c.claim_text) } :: parseClaimsGo pn (idx + 1) cs
    else parseClaimsGo pn (idx + 1) cs

/-- PatentParserService._parse_claims. -/
def _parse_claims (raw : RawPatent) : List ParsedClaim :=
  if truthy raw.patent_number then
    parseClaimsGo (optStr raw.patent_number) 1 raw.claims
  else []

/-- PatentParserService._parse_citations: backward citations from the cited
list, then forward citations from the cited-by list; an entry with a falsy
counterpart number is dropped. -/
def _parse_citations (raw : RawPatent) : List ParsedCitation :=
  if truthy raw.patent_number then
    (raw.cited_patents.filterMap (fun cited =>
      if truthy cited.cited_patent_number then
        some { citing_patent := optStr raw.patent_number
             , cited_patent := optStr cited.cited_patent_number
             , citation_type := "backward" }
      else none)) ++
    (raw.citedby_patents.filterMap (fun citedby =>
      if truthy citedby.citedby_patent_number then
        some { citing_patent := optStr citedby.citedby_patent_number
             , cited_patent := optStr raw.patent_number
             , citation_type := "forward" }
      else none))
  else []

/-- One step of PatentParserService.parse_patents: a record whose metadata
parse yields nothing contributes nothing; otherwise its patent, claims and
citations are appended to the three accumulators.  The source wraps each
record in a try/except; the embedded parser is total, so the exception
branch never fires. -/
def parseStep (acc : List ParsedPatent × List ParsedClaim × List ParsedCitation)
    (raw : RawPatent) : List ParsedPatent × List ParsedClaim × List ParsedCitation :=
  match _parse_patent_metadata raw with
  | some p => (acc.1 ++ [p], acc.2.1 ++ _parse_claims raw, acc.2.2 ++ _parse_citations raw)
  | none => acc

/-- PatentParserService.parse_patents. -/
def parse_patents (raw_patents : List RawPatent) :
    List ParsedPatent × List ParsedClaim × List ParsedCitation :=
  raw_patents.foldl parseStep ([], [], [])

/-! ## PostgreSQL loader (PostgresLoader, data-pipeline/postgres_loader.py) -/

structure PatentRow where
  id : Nat
  patent_number : String
  title : String
  abstract : Option String
  filing_date : Option PyDate
  grant_date : Option PyDate
  assignee_name : Option String
  inventor_names : Option String
  raw_data : RawPatent
deriving DecidableEq

structure ClaimRow where
  patent_id : Nat
  claim_number : Int
  claim_text : String
deriving DecidableEq

structure CitationRow where
  citing_patent_number : String
  cited_patent_number : String
  citation_type : String
deriving DecidableEq

/-- The three tables of the patents schema plus the serial counter backing
the surrogate id column of the patents table. -/
structure DB where
  patents : List PatentRow
  claims : List ClaimRow
  citations : List CitationRow
  next_id : Nat
deriving DecidableEq

/-- The upsert of _insert_patents: INSERT with ON CONFLICT on patent_number
DO UPDATE, overwriting every mutable column while keeping the existing
surrogate id; a new patent gets the next serial id. -/
def upsertPatent (db : DB) (p : ParsedPatent) : DB :=
  if db.patents.any (fun r => decide (r.patent_number = p.patent_number)) then
    { db with patents := db.patents.map (fun r =>
        if r.patent_number = p.patent_number then
          { r with title := p.title, abstract := p.abstract,
                   filing_date := p.filing_date, grant_date := p.grant_date,
                   assignee_name := p.assignee_name,
                   inventor_names := p.inventor_names, raw_data := p.raw_data }
        else r) }
  else
    { db with
        patents := db.patents ++
          [{ id := db.next_id, patent_number := p.patent_number,
             title := p.title, abstract := p.abstract,
             filing_date := p.filing_date, grant_date := p.grant_date,
             assignee_name := p.assignee_name,
             inventor_names := p.inventor_names, raw_data := p.raw_data }],
        next_id := db.next_id + 1 }

/-- PostgresLoader._insert_patents: one upsert per incoming patent, the
counter incremented for every patent processed. -/
def _insert_patents (db : DB) (patents : List ParsedPatent) : DB × Nat :=
  patents.foldl (fun acc p => (upsertPatent acc.1 p, acc.2 + 1)) (db, 0)

/-- The id lookup of _insert_claims: SELECT id WHERE patent_number matches,
taking the first row as cur.fetchone does. -/
def lookupPatentId (db : DB) (pn : String) : Option Nat :=
  (db.patents.find? (fun r => decide (r.patent_number = pn))).map (fun r => r.id)

/-- One insertion into the per-patent grouping dict of _insert_claims:
Python dicts preserve key insertion order, and each claim is appended to the
end of its group. -/
def insertGroup (gs : List (String × List ParsedClaim)) (c : ParsedClaim) :
    List (String × List ParsedClaim) :=
  match gs with
  | [] => [(c.patent_number, [c])]
  | (k, g) :: rest =>
    if k = c.patent_number then (k, g ++ [c]) :: rest
    else (k, g) :: insertGroup rest c

/-- The claims_by_patent grouping dict of _insert_claims. -/
def groupByPatent (claims : List ParsedClaim) : List (String × List ParsedClaim) :=
  claims.foldl insertGroup []

/-- One group of _insert_claims: resolve the patent id (skipping the group
when the patent row is missing), delete every existing claim of that patent,
bulk-insert the new group, and add the group size to the running count. -/
def insertClaimGroup (acc : DB × Nat) (pg : String × List ParsedClaim) : DB × Nat :=
  let db := acc.1
  match lookupPatentId db pg.1 with
  | none => acc
  | some patent_id =>
    ({ db with claims :=
        db.claims.filter (fun r => decide (r.patent_id ≠ patent_id)) ++
        pg.2.map (fun c =>
          { patent_id := patent_id, claim_number := c.claim_number,
            claim_text := c.claim_text }) },
     acc.2 + pg.2.length)

/-- PostgresLoader._insert_claims. -/
def _insert_claims (db : DB) (claims : List ParsedClaim) : DB × Nat :=
  if claims = [] then (db, 0)
  else (groupByPatent claims).foldl insertClaimGroup (db, 0)

/-- The uniqueness constraint of the citations table: a row with the same
citing and cited patent numbers is already present, regardless of its
citation type. -/
def pairPresent (rows : List CitationRow) (c : ParsedCitation) : Bool :=
  rows.any (fun r => decide (r.citing_patent_number = c.citing_patent ∧
    r.cited_patent_number = c.cited_patent))

/-- The citations row built from one parsed citation. -/
def citationRowOf (c : ParsedCitation) : CitationRow :=
  { citing_patent_number := c.citing_patent,
    cited_patent_number := c.cited_patent,
    citation_type := c.citation_type }

/-- One insert of _insert_citations: INSERT with ON CONFLICT on the pair of
citing and cited numbers DO NOTHING; the counter grows only when cur.rowcount
reports a new row, and the conflict check ignores the citation type. -/
def insertCitationStep (acc : List CitationRow × Nat) (c : ParsedCitation) :
    List CitationRow × Nat :=
  if pairPresent acc.1 c then acc
  else (acc.1 ++ [citationRowOf c], acc.2 + 1)

/-- The citations table transformation of _insert_citations. -/
def insertCitationsTable (rows : List CitationRow) (citations : List ParsedCitation) :
    List CitationRow × Nat :=
  citations.foldl insertCitationStep (rows, 0)

/-- PostgresLoader._insert_citations. -/
def _insert_citations (db : DB) (citations : List ParsedCitation) : DB × Nat :=
  if citations = [] then (db, 0)
  else
    let r := insertCitationsTable db.citations citations
    ({ db with citations := r.1 }, r.2)

/-- Which phase of load_patents a database error is injected into; the
error-free run is modelled by no injected fault. -/
inductive FailPhase where
  | patents
  | claims
  | citations
deriving DecidableEq

/-- The counts dict returned by load_patents. -/
structure LoadCounts where
  patents : Nat
  claims : Nat
  citations : Nat
deriving DecidableEq

/-- PostgresLoader.load_patents under fault injection.  Each phase runs
inside one transaction committed immediately after it; an injected
psycopg2.Error in a phase reaches the except clause, which rolls the
in-progress transaction back, so the committed state stays at the last
commit and the result dict keeps the zeros of the failing and subsequent
phases.  The returned pair is the committed database and the counts the
caller receives; no exception escapes. -/
def load_patents (fault : Option FailPhase) (db : DB)
    (patents : List ParsedPatent) (claims : List ParsedClaim)
    (citations : List ParsedCitation) : DB × LoadCounts :=
  if patents = [] then (db, ⟨0, 0, 0⟩)
  else if fault = some FailPhase.patents then (db, ⟨0, 0, 0⟩)
  else
    let r1 := _insert_patents db patents
    if fault = some FailPhase.claims then (r1.1, ⟨r1.2, 0, 0⟩)
    else
      let r2 := _insert_claims r1.1 claims
      if fault = some FailPhase.citations then (r2.1, ⟨r1.2, r2.2, 0⟩)
      else
        let r3 := _insert_citations r2.1 citations
        (r3.1, ⟨r1.2, r2.2, r3.2⟩)

/-! ## Concrete inputs used by counterexamples and witnesses -/

/-- A raw record with every key absent. -/
def emptyRaw : RawPatent :=
  { patent_number := none, patent_title := none, patent_abstract := none,
    patent_date := none, app_date := none, assignees := [], inventors := [],
    claims := [], cited_patents := [], citedby_patents := [] }

/-- A raw record whose single claim has whitespace-only text. -/
def c6Raw : RawPatent :=
  { emptyRaw with patent_number := some "1",
                  claims := [{ claim_number := none, claim_text := some " " }] }

/-- An environment whose every response carries one patent but lacks the
count and total_pages keys. -/
def c2Env : Nat → PageResult Nat :=
  fun _ => PageResult.success { patents := some [7], count := none, total_pages := none }

/-- An environment whose every response reports an empty patent batch and a
total page count of zero. -/
def c10Env : Nat → PageResult Nat :=
  fun _ => PageResult.success { patents := some [], count := none, total_pages := some 0 }

/-- An environment with three pages of one patent each. -/
def c10OkEnv : Nat → PageResult Nat :=
  fun p => PageResult.success { patents := some [10 * p], count := some 3, total_pages := some 3 }

/-- An environment whose second page fails at transport level. -/
def c2FailEnv : Nat → PageResult Nat :=
  fun p => if p = 2 then PageResult.requestError
           else PageResult.success { patents := some [10 * p], count := some 9, total_pages := some 4 }

/-- The empty database. -/
def emptyDB : DB := { patents := [], claims := [], citations := [], next_id := 1 }

/-- A sample parsed patent used by witnesses. -/
def samplePatent : ParsedPatent :=
  { patent_number := "10000000", title := "Example Patent",
    abstract := some "This is an example abstract.",
    filing_date := some ⟨2018, 6, 20⟩, grant_date := some ⟨2020, 1, 15⟩,
    assignee_name := some "Example Corp", inventor_names := some "John Doe",
    raw_data := emptyRaw }

/-- A sample parsed claim used by witnesses. -/
def sampleClaim : ParsedClaim :=
  { patent_number := "10000000", claim_number := 1,
    claim_text := "A method comprising..." }

/-- A sample parsed citation used by witnesses. -/
def sampleCitation : ParsedCitation :=
  { citing_patent := "10000000", cited_patent := "9999999",
    citation_type := "backward" }

/-- A database holding one patent row, used by witnesses. -/
def oneRowDB : DB :=
  { patents := [{ id := 5, patent_number := "10000000", title := "Example Patent",
                  abstract := none, filing_date := none, grant_date := none,
                  assignee_name := none, inventor_names := none,
                  raw_data := emptyRaw }],
    claims := [], citations := [], next_id := 6 }

/-- A database already holding one backward citation row, used by witnesses. -/
def c3DB : DB :=
  { patents := [], claims := [],
    citations := [{ citing_patent_number := "A", cited_patent_number := "B",
                    citation_type := "backward" }],
    next_id := 1 }

/-- A citation with the same pair as the row of c3DB but the other type. -/
def c3Cit : ParsedCitation :=
  { citing_patent := "A", cited_patent := "B", citation_type := "forward" }

/-! ## Theorems -/

/-- C1: for a non-empty patent list, a database error injected into any one
of the three load phases makes load_patents return, without raising, the
database as committed by the phases before the failing one together with the
counts accumulated from those committed phases; the failing and subsequent
phases report zero, and the rolled-back phase leaves no trace in the
committed state. -/
theorem c1_load_patents_partial_failure (db : DB) (patents : List ParsedPatent)
    (claims : List ParsedClaim) (citations : List ParsedCitation)
    (h : patents ≠ []) :
    load_patents (some FailPhase.patents) db patents claims citations =
      (db, ⟨0, 0, 0⟩) ∧
    load_patents (some FailPhase.claims) db patents claims citations =
      ((_insert_patents db patents).1, ⟨(_insert_patents db patents).2, 0, 0⟩) ∧
    load_patents (some FailPhase.citations) db patents claims citations =
      ((_insert_claims (_insert_patents db patents).1 claims).1,
       ⟨(_insert_patents db patents).2,
        (_insert_claims (_insert_patents db patents).1 claims).2, 0⟩) := by
  refine ⟨?_, ?_, ?_⟩ <;> simp [load_patents, h]

/-- C1 witness at concrete inputs. -/
theorem c1_load_patents_partial_failure_witness :
    [samplePatent] ≠ ([] : List ParsedPatent) ∧
    load_patents (some FailPhase.claims) emptyDB [samplePatent] [sampleClaim]
      [sampleCitation] =
      ((_insert_patents emptyDB [samplePatent]).1,
       ⟨(_insert_patents emptyDB [samplePatent]).2, 0, 0⟩) :=
  ⟨by simp, (c1_load_patents_partial_failure emptyDB [samplePatent] [sampleClaim]
    [sampleCitation] (by simp)).2.1⟩

/-- C5: a raw record with a falsy patent number contributes no patent, no
claim, and no citation, and removing it from anywhere in a batch leaves the
outputs for all other records unchanged. -/
theorem c5_numberless_record_skipped (xs ys : List RawPatent) (bad : RawPatent)
    (h : truthy bad.patent_number = false) :
    parse_patents (xs ++ bad :: ys) = parse_patents (xs ++ ys) ∧
    parse_patents [bad] = ([], [], []) := by
  have hmeta : _parse_patent_metadata bad = none := by
    unfold _parse_patent_metadata
    rw [h]
    simp
  have hstep : ∀ acc, parseStep acc bad = acc := by
    intro acc
    unfold parseStep
    rw [hmeta]
  constructor
  · unfold parse_patents
    rw [List.foldl_append, List.foldl_append, List.foldl_cons, hstep]
  · unfold parse_patents
    rw [List.foldl_cons, hstep, List.foldl_nil]

/-- C5 witness at concrete inputs. -/
theorem c5_numberless_record_skipped_witness :
    truthy emptyRaw.patent_number = false ∧
    parse_patents ([c6Raw] ++ emptyRaw :: []) = parse_patents ([c6Raw] ++ []) :=
  ⟨by decide, (c5_numberless_record_skipped [c6Raw] [] emptyRaw (by decide)).1⟩

/-- C7: date parsing accepts the dashed and the compact format, both sample
strings parse to the same calendar date, a string matching neither format
parses to nothing, and missing or empty input parses to nothing; the
embedded parser is total, so no exception is possible. -/
theorem c7_parse_date_two_formats :
    (_parse_date (some "2020-01-15") = some ⟨2020, 1, 15⟩ ∧
     _parse_date (some "20200115") = some ⟨2020, 1, 15⟩) ∧
    _parse_date (some "not-a-date") = none ∧
    (_parse_date none = none ∧ _parse_date (some "") = none) ∧
    (∀ s : String, matchYMDdash s.data = none → matchYMDcompact s.data = none →
      _parse_date (some s) = none) := by
  refine ⟨⟨by decide, by decide⟩, by decide, ⟨rfl, by decide⟩, ?_⟩
  intro s h1 h2
  by_cases hs : s = ""
  · subst hs
    decide
  · simp [_parse_date, hs, h1, h2]

/-- C7 witness at a concrete unparsable string. -/
theorem c7_parse_date_two_formats_witness :
    matchYMDdash ("xyz" : String).data = none ∧
    matchYMDcompact ("xyz" : String).data = none ∧
    _parse_date (some "xyz") = none :=
  ⟨by decide, by decide,
   c7_parse_date_two_formats.2.2.2 "xyz" (by decide) (by decide)⟩

/-- A citation whose pair is already present is skipped by one insert step. -/
theorem insertCitationStep_skip (acc : List CitationRow × Nat) (c : ParsedCitation)
    (h : pairPresent acc.1 c = true) : insertCitationStep acc c = acc := by
  unfold insertCitationStep
  rw [if_pos h]

/-- A citation whose pair is new is appended and counted by one insert step. -/
theorem insertCitationStep_insert (rows : List CitationRow) (n : Nat)
    (c : ParsedCitation) (h : ¬ pairPresent rows c = true) :
    insertCitationStep (rows, n) c = (rows ++ [citationRowOf c], n + 1) := by
  simp [insertCitationStep, h]

/-- The citation fold grows the table by exactly the counted number of rows. -/
theorem insertCitationsTable_len : ∀ (cits : List ParsedCitation)
    (rows : List CitationRow) (n0 : Nat),
    (List.foldl insertCitationStep (rows, n0) cits).1.length + n0 =
      (List.foldl insertCitationStep (rows, n0) cits).2 + rows.length := by
  intro cits
  induction cits with
  | nil =>
    intro rows n0
    simp
    omega
  | cons c cs ih =>
    intro rows n0
    rw [List.foldl_cons]
    by_cases h : pairPresent rows c = true
    · rw [insertCitationStep_skip _ _ h]
      exact ih rows n0
    · rw [insertCitationStep_insert _ _ _ h]
      have h2 := ih (rows ++ [citationRowOf c]) (n0 + 1)
      simp only [List.length_append, List.length_cons, List.length_nil] at h2
      omega

/-- The citation fold only ever appends rows to the table. -/
theorem insertCitationsTable_extends : ∀ (cits : List ParsedCitation)
    (rows : List CitationRow) (n0 : Nat),
    ∃ ext, (List.foldl insertCitationStep (rows, n0) cits).1 = rows ++ ext := by
  intro cits
  induction cits with
  | nil =>
    intro rows n0
    exact ⟨[], by simp⟩
  | cons c cs ih =>
    intro rows n0
    rw [List.foldl_cons]
    by_cases h : pairPresent rows c = true
    · rw [insertCitationStep_skip _ _ h]
      exact ih rows n0
    · rw [insertCitationStep_insert _ _ _ h]
      obtain ⟨ext, hx⟩ := ih (rows ++ [citationRowOf c]) (n0 + 1)
      exact ⟨citationRowOf c :: ext, by rw [hx, List.append_assoc]; rfl⟩

/-- Pair presence is preserved by appending rows. -/
theorem pairPresent_append (rows ext : List CitationRow) (c : ParsedCitation)
    (h : pairPresent rows c = true) : pairPresent (rows ++ ext) c = true := by
  simp only [pairPresent, List.any_append]
  simp only [pairPresent] at h
  rw [h]
  rfl

/-- The row built from a citation matches that citation's pair. -/
theorem pairPresent_self (rows : List CitationRow) (c : ParsedCitation) :
    pairPresent (rows ++ [citationRowOf c]) c = true := by
  simp [pairPresent, citationRowOf]

/-- After the citation fold, every pair of the processed batch is present. -/
theorem insertCitationsTable_all_present : ∀ (cits : List ParsedCitation)
    (rows : List CitationRow) (n0 : Nat) (c : ParsedCitation), c ∈ cits →
    pairPresent (List.foldl insertCitationStep (rows, n0) cits).1 c = true := by
  intro cits
  induction cits with
  | nil =>
    intro rows n0 c hc
    simp at hc
  | cons c0 cs ih =>
    intro rows n0 c hc
    rw [List.foldl_cons]
    rcases List.mem_cons.mp hc with h1 | h2
    · subst h1
      by_cases h : pairPresent rows c = true
      · rw [insertCitationStep_skip _ _ h]
        obtain ⟨ext, hx⟩ := insertCitationsTable_extends cs rows n0
        rw [hx]
        exact pairPresent_append _ _ _ h
      · rw [insertCitationStep_insert _ _ _ h]
        obtain ⟨ext, hx⟩ := insertCitationsTable_extends cs
          (rows ++ [citationRowOf c]) (n0 + 1)
        rw [hx]
        exact pairPresent_append _ _ _ (pairPresent_self rows c)
    · by_cases h : pairPresent rows c0 = true
      · rw [insertCitationStep_skip _ _ h]
        exact ih rows n0 c h2
      · rw [insertCitationStep_insert _ _ _ h]
        exact ih _ _ c h2

/-- The citation fold is the identity when every pair is already present. -/
theorem insertCitationsTable_noop : ∀ (cits : List ParsedCitation)
    (rows : List CitationRow) (n0 : Nat),
    (∀ c ∈ cits, pairPresent rows c = true) →
    List.foldl insertCitationStep (rows, n0) cits = (rows, n0) := by
  intro cits
  induction cits with
  | nil =>
    intro rows n0 _
    rfl
  | cons c cs ih =>
    intro rows n0 hall
    rw [List.foldl_cons, insertCitationStep_skip _ _ (hall c (List.mem_cons_self _ _))]
    exact ih rows n0 (fun x hx => hall x (List.mem_cons_of_mem _ hx))

/-- The non-empty case of _insert_citations, unfolded. -/
theorem insert_citations_eq (db : DB) (cits : List ParsedCitation) (hc : cits ≠ []) :
    _insert_citations db cits =
      ({ db with citations := (insertCitationsTable db.citations cits).1 },
       (insertCitationsTable db.citations cits).2) := by
  unfold _insert_citations
  rw [if_neg hc]

/-- C3: a citation whose citing and cited pair is already present in the
citations table (with either citation type) is skipped and not counted; the
reported count always equals exactly the number of newly inserted rows; and
reloading the same citation batch changes nothing and reports zero new
insertions. -/
theorem c3_citations_insert_or_skip (db : DB) (cits : List ParsedCitation)
    (c : ParsedCitation) (hpair : pairPresent db.citations c = true) :
    _insert_citations db [c] = (db, 0) ∧
    ((_insert_citations db cits).1).citations.length =
      db.citations.length + (_insert_citations db cits).2 ∧
    _insert_citations (_insert_citations db cits).1 cits =
      ((_insert_citations db cits).1, 0) := by
  refine ⟨?_, ?_, ?_⟩
  · rw [insert_citations_eq db [c] (by simp)]
    unfold insertCitationsTable
    rw [List.foldl_cons, insertCitationStep_skip _ _ hpair, List.foldl_nil]
  · by_cases hc : cits = []
    · subst hc
      simp [_insert_citations]
    · rw [insert_citations_eq db cits hc]
      have hlen := insertCitationsTable_len cits db.citations 0
      show (insertCitationsTable db.citations cits).1.length =
        db.citations.length + (insertCitationsTable db.citations cits).2
      unfold insertCitationsTable
      unfold insertCitationsTable at hlen
      omega
  · by_cases hc : cits = []
    · subst hc
      simp [_insert_citations]
    · rw [insert_citations_eq db cits hc,
          insert_citations_eq _ cits hc]
      have hall : ∀ x ∈ cits,
          pairPresent (insertCitationsTable db.citations cits).1 x = true := by
        intro x hx
        exact insertCitationsTable_all_present cits db.citations 0 x hx
      have hnoop := insertCitationsTable_noop cits (insertCitationsTable db.citations cits).1 0 hall
      unfold insertCitationsTable
      unfold insertCitationsTable at hnoop
      rw [hnoop]

/-- C3 witness at concrete inputs: the pair exists with the opposite type. -/
theorem c3_citations_insert_or_skip_witness :
    pairPresent c3DB.citations c3Cit = true ∧
    _insert_citations c3DB [c3Cit] = (c3DB, 0) :=
  ⟨by decide, (c3_citations_insert_or_skip c3DB [c3Cit] c3Cit (by decide)).1⟩

/-- The success shape of fetchResult, unfolded. -/
theorem fetchResult_success {α : Type} (env : Nat → PageResult α) (M : Nat)
    (body : ApiResponse α) (ps : List α)
    (h1 : env 1 = PageResult.success body) (hps : body.patents = some ps) :
    fetchResult env M =
      (1 :: (fetchLoop env (List.range' 2 (min M (body.total_pages.getD 1) - 1)) ps).1,
       match (fetchLoop env (List.range' 2 (min M (body.total_pages.getD 1) - 1)) ps).2 with
       | Except.ok all => all
       | Except.error _ => []) := by
  simp only [fetchResult, h1, hps]

/-- The fetch loop under all-successful responses requests exactly its given
pages and accumulates the batches in page order. -/
theorem fetchLoop_success {α : Type} (env : Nat → PageResult α)
    (B : Nat → ApiResponse α) :
    ∀ (pages : List Nat) (acc : List α),
    (∀ p ∈ pages, env p = PageResult.success (B p)) →
    fetchLoop env pages acc =
      (pages,
       Except.ok (acc ++ (pages.map (fun p => ((B p).patents).getD [])).flatten)) := by
  intro pages
  induction pages with
  | nil =>
    intro acc _
    simp [fetchLoop]
  | cons p rest ih =>
    intro acc hall
    have hp := hall p (List.mem_cons_self _ _)
    have hrest : ∀ q ∈ rest, env q = PageResult.success (B q) :=
      fun q hq => hall q (List.mem_cons_of_mem _ hq)
    simp only [fetchLoop, hp]
    cases hb : (B p).patents with
    | some bs =>
      rw [ih (acc ++ bs) hrest]
      simp [hb, List.append_assoc]
    | none =>
      rw [ih acc hrest]
      simp [hb]

/-- The pages the fetch loop requests are always among the pages it is
given. -/
theorem fetchLoop_trace_subset {α : Type} (env : Nat → PageResult α) :
    ∀ (pages : List Nat) (acc : List α) (q : Nat),
    q ∈ (fetchLoop env pages acc).1 → q ∈ pages := by
  intro pages
  induction pages with
  | nil =>
    intro acc q h
    simp [fetchLoop] at h
  | cons p rest ih =>
    intro acc q h
    cases he : env p with
    | requestError =>
      simp [fetchLoop, he] at h
      simp [h]
    | jsonError =>
      simp [fetchLoop, he] at h
      simp [h]
    | success body =>
      simp only [fetchLoop, he] at h
      rcases List.mem_cons.mp h with h1 | h2
      · subst h1
        exact List.mem_cons_self _ _
      · exact List.mem_cons_of_mem _ (ih _ q h2)

/-- A transport or JSON failure on a page, after successful earlier pages,
propagates out of the fetch loop. -/
theorem fetchLoop_error {α : Type} (env : Nat → PageResult α) (p : Nat)
    (hp : env p = PageResult.requestError ∨ env p = PageResult.jsonError) :
    ∀ (pre post : List Nat) (acc : List α),
    (∀ q ∈ pre, ∃ b, env q = PageResult.success b) →
    (fetchLoop env (pre ++ p :: post) acc).2 = Except.error () := by
  intro pre
  induction pre with
  | nil =>
    intro post acc _
    rcases hp with h | h <;> simp [fetchLoop, h]
  | cons q qs ih =>
    intro post acc hall
    obtain ⟨b, hb⟩ := hall q (List.mem_cons_self _ _)
    simp only [List.cons_append, fetchLoop, hb]
    exact ih post _ (fun x hx => hall x (List.mem_cons_of_mem _ hx))

/-- C2 fails as stated: a first-page response lacking both the count and the
total_pages keys is not treated as a schema failure; the fetch returns the
first batch instead of the empty list. -/
theorem c2_counterexample :
    c2Env 1 = PageResult.success
      { patents := some [7], count := none, total_pages := none } ∧
    fetch_patents_by_query c2Env 5 = [7] ∧
    fetch_patents_by_query c2Env 5 ≠ [] :=
  ⟨rfl, by decide, by decide⟩

/-- C2 amended: the fetch returns the empty list, raising nothing, on a
transport or JSON failure of the first request, when the first page body
lacks the patents key, and when a transport or JSON failure hits a later
requested page after successful earlier pages; but a first-page body lacking
the total_pages key is not a schema failure: the page count defaults to one
and the first batch is returned as is (the count key is never consulted). -/
theorem c2_fetch_failure_semantics {α : Type} (env : Nat → PageResult α) (M : Nat) :
    (env 1 = PageResult.requestError → fetch_patents_by_query env M = []) ∧
    (env 1 = PageResult.jsonError → fetch_patents_by_query env M = []) ∧
    (∀ body, env 1 = PageResult.success body → body.patents = none →
      fetch_patents_by_query env M = []) ∧
    (∀ body ps, env 1 = PageResult.success body → body.patents = some ps →
      body.total_pages = none → fetch_patents_by_query env M = ps) ∧
    (∀ body ps p pre post, env 1 = PageResult.success body →
      body.patents = some ps →
      (env p = PageResult.requestError ∨ env p = PageResult.jsonError) →
      List.range' 2 (min M (body.total_pages.getD 1) - 1) = pre ++ p :: post →
      (∀ q ∈ pre, ∃ b, env q = PageResult.success b) →
      fetch_patents_by_query env M = []) := by
  refine ⟨?_, ?_, ?_, ?_, ?_⟩
  · intro h
    simp [fetch_patents_by_query, fetchResult, h]
  · intro h
    simp [fetch_patents_by_query, fetchResult, h]
  · intro body h1 h2
    simp [fetch_patents_by_query, fetchResult, h1, h2]
  · intro body ps h1 h2 h3
    have hm : min M ((body.total_pages).getD 1) - 1 = 0 := by
      rw [h3]
      have := Nat.min_le_right M 1
      simp only [Option.getD_none]
      omega
    have hfr := fetchResult_success env M body ps h1 h2
    rw [hm] at hfr
    unfold fetch_patents_by_query
    rw [hfr]
    simp [fetchLoop]
  · intro body ps p pre post h1 h2 hperr hsplit hpre
    have hfr := fetchResult_success env M body ps h1 h2
    rw [hsplit] at hfr
    have herr := fetchLoop_error env p hperr pre post ps hpre
    unfold fetch_patents_by_query
    rw [hfr, herr]

/-- C2 amended witness: defaulted total_pages returns the first batch; a
transport failure on page 2 returns the empty list. -/
theorem c2_fetch_failure_semantics_witness :
    fetch_patents_by_query c2Env 5 = [7] ∧
    fetch_patents_by_query c2FailEnv 5 = [] := by
  constructor
  · exact (c2_fetch_failure_semantics c2Env 5).2.2.2.1
      { patents := some [7], count := none, total_pages := none } [7] rfl rfl rfl
  · exact (c2_fetch_failure_semantics c2FailEnv 5).2.2.2.2
      { patents := some [10], count := some 9, total_pages := some 4 } [10]
      2 [] [3, 4] (by decide) (by decide) (by decide) (by decide) (by simp)

/-- C10 fails as stated: after a successful first page reporting zero total
pages, page 1 has already been requested even though it exceeds the stated
bound of min(max_pages, total_pages) = 0 pages. -/
theorem c10_counterexample :
    c10Env 1 = PageResult.success
      { patents := some [], count := none, total_pages := some 0 } ∧
    requestedPages c10Env 5 = [1] ∧
    min 5 0 = 0 ∧
    ¬ (∀ q ∈ requestedPages c10Env 5, q ≤ min 5 0) :=
  ⟨rfl, by decide, rfl, by decide⟩

/-- C10 amended: page 1 is requested first; after a successful first page
carrying a patents batch and a total page count, the loop requests exactly
pages 2 up to min(max_pages, total_pages) sequentially in increasing order,
never beyond that bound, and when every one of those pages succeeds the
fetch returns the concatenation of all page batches in arrival order. -/
theorem c10_sequential_pagination {α : Type} (env : Nat → PageResult α)
    (M T : Nat) (body : ApiResponse α) (ps : List α) (B : Nat → ApiResponse α)
    (h1 : env 1 = PageResult.success body)
    (hps : body.patents = some ps)
    (hT : body.total_pages = some T)
    (hall : ∀ p ∈ List.range' 2 (min M T - 1), env p = PageResult.success (B p)) :
    requestedPages env M = 1 :: List.range' 2 (min M T - 1) ∧
    fetch_patents_by_query env M =
      ps ++ ((List.range' 2 (min M T - 1)).map
        (fun p => ((B p).patents).getD [])).flatten ∧
    (∀ q ∈ requestedPages env M, q = 1 ∨ (2 ≤ q ∧ q ≤ min M T)) := by
  have hfr := fetchResult_success env M body ps h1 hps
  rw [hT] at hfr
  simp only [Option.getD_some] at hfr
  rw [fetchLoop_success env B _ ps hall] at hfr
  refine ⟨?_, ?_, ?_⟩
  · unfold requestedPages
    rw [hfr]
  · unfold fetch_patents_by_query
    rw [hfr]
  · intro q hq
    unfold requestedPages at hq
    rw [hfr] at hq
    rcases List.mem_cons.mp hq with h | h
    · exact Or.inl h
    · right
      rw [List.mem_range'] at h
      obtain ⟨i, hi, rfl⟩ := h
      omega

/-- C10 amended witness at a three-page environment. -/
theorem c10_sequential_pagination_witness :
    requestedPages c10OkEnv 5 = [1, 2, 3] ∧
    fetch_patents_by_query c10OkEnv 5 = [10, 20, 30] := by
  have h := c10_sequential_pagination c10OkEnv 5 3
    { patents := some [10], count := some 3, total_pages := some 3 } [10]
    (fun p => { patents := some [10 * p], count := some 3, total_pages := some 3 })
    (by decide) rfl rfl (by decide)
  exact ⟨h.1.trans (by decide), h.2.1.trans (by decide)⟩

/-- The head surviving a dropWhile fails the predicate. -/
theorem dropWhile_head?_false {α : Type} (p : α → Bool) :
    ∀ (l : List α) (a : α), (l.dropWhile p).head? = some a → p a = false := by
  intro l
  induction l with
  | nil =>
    intro a h
    simp at h
  | cons x xs ih =>
    intro a h
    by_cases hx : p x = true
    · rw [List.dropWhile_cons, if_pos hx] at h
      exact ih a h
    · rw [List.dropWhile_cons, if_neg hx] at h
      simp only [List.head?_cons, Option.some.injEq] at h
      subst h
      simpa using hx

/-- A list whose head fails the predicate is unchanged by dropWhile. -/
theorem dropWhile_eq_self_of_head? {α : Type} (p : α → Bool) (l : List α)
    (h : ∀ a, l.head? = some a → p a = false) : l.dropWhile p = l := by
  cases l with
  | nil => rfl
  | cons x xs =>
    have hx := h x rfl
    rw [List.dropWhile_cons, if_neg]
    simp [hx]

/-- Consing onto a non-empty list keeps its last element. -/
theorem getLast?_cons_of_ne_nil {α : Type} (a : α) (t : List α) (h : t ≠ []) :
    (a :: t).getLast? = t.getLast? := by
  cases t with
  | nil => exact absurd rfl h
  | cons b u => exact List.getLast?_cons_cons

/-- A non-empty dropWhile result keeps the last element of its input. -/
theorem getLast?_dropWhile {α : Type} (p : α → Bool) :
    ∀ (l : List α), l.dropWhile p ≠ [] → (l.dropWhile p).getLast? = l.getLast? := by
  intro l
  induction l with
  | nil =>
    intro h
    simp at h
  | cons x xs ih =>
    intro h
    by_cases hx : p x = true
    · rw [List.dropWhile_cons, if_pos hx] at h ⊢
      have hxs : xs ≠ [] := by
        intro hn
        subst hn
        simp at h
      rw [ih h, getLast?_cons_of_ne_nil _ _ hxs]
    · rw [List.dropWhile_cons, if_neg hx]

/-- Stripping whitespace from both ends is idempotent. -/
theorem pyStripChars_idem (l : List Char) :
    pyStripChars (pyStripChars l) = pyStripChars l := by
  unfold pyStripChars
  by_cases hvnil : (l.dropWhile isPySpace).reverse.dropWhile isPySpace = []
  · rw [hvnil]
    simp
  · have h1 : ((l.dropWhile isPySpace).reverse.dropWhile isPySpace).reverse.dropWhile
        isPySpace = ((l.dropWhile isPySpace).reverse.dropWhile isPySpace).reverse := by
      apply dropWhile_eq_self_of_head?
      intro a ha
      rw [List.head?_reverse, getLast?_dropWhile _ _ hvnil, List.getLast?_reverse] at ha
      exact dropWhile_head?_false _ l a ha
    rw [h1, List.reverse_reverse]
    have h2 : ((l.dropWhile isPySpace).reverse.dropWhile isPySpace).dropWhile
        isPySpace = (l.dropWhile isPySpace).reverse.dropWhile isPySpace := by
      apply dropWhile_eq_self_of_head?
      intro a ha
      exact dropWhile_head?_false _ (l.dropWhile isPySpace).reverse a ha
    rw [h2]

/-- Python str.strip is idempotent. -/
theorem pyStrip_idem (s : String) : pyStrip (pyStrip s) = pyStrip s := by
  show String.mk (pyStripChars (pyStripChars s.data)) = String.mk (pyStripChars s.data)
  rw [pyStripChars_idem]

/-- The claim loop emits exactly the kept claims of the enumerated raw claim
list, numbering a claim without an explicit number by its enumerate
position. -/
theorem parseClaimsGo_eq (pn : String) :
    ∀ (l : List RawClaim) (idx : Nat),
    parseClaimsGo pn idx l = (List.enumFrom idx l).filterMap (fun ic =>
      if truthy ic.2.claim_text then
        some { patent_number := pn,
               claim_number := ic.2.claim_number.getD (ic.1 : Int),
               claim_text := pyStrip (optStr ic.2.claim_text) }
      else none) := by
  intro l
  induction l with
  | nil =>
    intro idx
    rfl
  | cons c cs ih =>
    intro idx
    rw [show List.enumFrom idx (c :: cs) = (idx, c) :: List.enumFrom (idx + 1) cs from rfl,
        List.filterMap_cons]
    by_cases h : truthy c.claim_text = true
    · simp only [parseClaimsGo, h, if_true, ih (idx + 1)]
    · simp only [parseClaimsGo, h, if_false, ih (idx + 1)]
      simp [h]

/-- Every claim text the claim loop emits is strip-shaped. -/
theorem parseClaimsGo_text_stripped (pn : String) :
    ∀ (l : List RawClaim) (idx : Nat) (pc : ParsedClaim),
    pc ∈ parseClaimsGo pn idx l → ∃ x, pc.claim_text = pyStrip x := by
  intro l
  induction l with
  | nil =>
    intro idx pc h
    simp [parseClaimsGo] at h
  | cons c cs ih =>
    intro idx pc h
    by_cases ht : truthy c.claim_text = true
    · simp only [parseClaimsGo, ht, if_true] at h
      rcases List.mem_cons.mp h with h1 | h2
      · subst h1
        exact ⟨optStr c.claim_text, rfl⟩
      · exact ih (idx + 1) pc h2
    · simp only [parseClaimsGo, ht, if_false] at h
      exact ih (idx + 1) pc h

/-- C6 fails as stated: a source claim whose text is a single space is not
dropped; the parser emits for it a claim whose stripped text is empty. -/
theorem c6_counterexample :
    _parse_claims c6Raw =
      [{ patent_number := "1", claim_number := 1, claim_text := "" }] ∧
    ¬ (∀ pc ∈ _parse_claims c6Raw, pc.claim_text ≠ "") :=
  ⟨by decide, by decide⟩

/-- C6 amended: every claim the normalizer emits for a numbered record has
trimmed text (stripping it again changes nothing) and carries the explicit
source claim number when present, else its 1-based position in the raw claim
list; a source claim with missing or empty text is dropped, but a claim
whose text is non-empty whitespace is kept with empty trimmed text. -/
theorem c6_claims_numbering_and_trimming (raw : RawPatent) (pn : String)
    (hpn : raw.patent_number = some pn) (hnz : pn ≠ "") :
    _parse_claims raw = (List.enumFrom 1 raw.claims).filterMap (fun ic =>
      if truthy ic.2.claim_text then
        some { patent_number := pn,
               claim_number := ic.2.claim_number.getD (ic.1 : Int),
               claim_text := pyStrip (optStr ic.2.claim_text) }
      else none) ∧
    (∀ pc ∈ _parse_claims raw, pyStrip pc.claim_text = pc.claim_text) := by
  have ht : truthy raw.patent_number = true := by
    rw [hpn]
    simp [truthy, hnz]
  have hopt : optStr raw.patent_number = pn := by
    rw [hpn]
    rfl
  constructor
  · unfold _parse_claims
    rw [if_pos ht, hopt, parseClaimsGo_eq]
  · intro pc hpc
    unfold _parse_claims at hpc
    rw [if_pos ht] at hpc
    obtain ⟨x, hx⟩ := parseClaimsGo_text_stripped _ raw.claims 1 pc hpc
    rw [hx, pyStrip_idem]

/-- C6 amended witness at the whitespace-claim record. -/
theorem c6_claims_numbering_and_trimming_witness :
    c6Raw.patent_number = some "1" ∧
    _parse_claims c6Raw = (List.enumFrom 1 c6Raw.claims).filterMap (fun ic =>
      if truthy ic.2.claim_text then
        some { patent_number := "1",
               claim_number := ic.2.claim_number.getD (ic.1 : Int),
               claim_text := pyStrip (optStr ic.2.claim_text) }
      else none) :=
  ⟨rfl, (c6_claims_numbering_and_trimming c6Raw "1" rfl (by decide)).1⟩

/-- The keys of the grouping dict after one insertion: unchanged when the
claim's patent number is already a key, extended by it otherwise. -/
theorem insertGroup_keys : ∀ (gs : List (String × List ParsedClaim)) (c : ParsedClaim),
    (c.patent_number ∈ gs.map Prod.fst →
      (insertGroup gs c).map Prod.fst = gs.map Prod.fst) ∧
    (c.patent_number ∉ gs.map Prod.fst →
      (insertGroup gs c).map Prod.fst = gs.map Prod.fst ++ [c.patent_number]) := by
  intro gs
  induction gs with
  | nil =>
    intro c
    exact ⟨fun h => absurd h (by simp), fun _ => rfl⟩
  | cons kg rest ih =>
    intro c
    obtain ⟨k, g⟩ := kg
    constructor
    · intro hmem
      by_cases hk : k = c.patent_number
      · simp only [insertGroup, if_pos hk]
        simp
      · simp only [insertGroup, if_neg hk]
        have hmem2 : c.patent_number ∈ rest.map Prod.fst := by
          rcases List.mem_cons.mp hmem with h1 | h2
          · exact absurd h1.symm hk
          · exact h2
        simp only [List.map_cons]
        rw [(ih c).1 hmem2]
    · intro hnot
      by_cases hk : k = c.patent_number
      · exact absurd (by simp [hk]) hnot
      · simp only [insertGroup, if_neg hk, List.map_cons]
        have hnot2 : c.patent_number ∉ rest.map Prod.fst := by
          intro h
          exact hnot (by simp [h])
        rw [(ih c).2 hnot2]
        rfl

/-- The group contents after one insertion into the grouping dict: each
group equals the filter of the extended claim list by its key. -/
theorem insertGroup_groups : ∀ (gs : List (String × List ParsedClaim))
    (c : ParsedClaim) (cs : List ParsedClaim),
    (gs.map Prod.fst).Nodup →
    (∀ p ∈ gs, p.2 = cs.filter (fun x => decide (x.patent_number = p.1))) →
    (c.patent_number ∉ gs.map Prod.fst →
      cs.filter (fun x => decide (x.patent_number = c.patent_number)) = []) →
    ∀ p ∈ insertGroup gs c,
      p.2 = (cs ++ [c]).filter (fun x => decide (x.patent_number = p.1)) := by
  intro gs
  induction gs with
  | nil =>
    intro c cs _ _ hmiss p hp
    simp only [insertGroup, List.mem_singleton] at hp
    subst hp
    rw [List.filter_append, hmiss (by simp)]
    simp
  | cons kg rest ih =>
    intro c cs hnd hgroups hmiss p hp
    obtain ⟨k, g⟩ := kg
    rw [List.map_cons, List.nodup_cons] at hnd
    by_cases hk : k = c.patent_number
    · simp only [insertGroup, if_pos hk] at hp
      rcases List.mem_cons.mp hp with h1 | h2
      · subst h1
        rw [List.filter_append, ← hgroups (k, g) (List.mem_cons_self _ _)]
        simp [hk]
      · have := hgroups p (List.mem_cons_of_mem _ h2)
        rw [List.filter_append, ← this]
        have hp1 : p.1 ∈ rest.map Prod.fst := List.mem_map_of_mem Prod.fst h2
        have : c.patent_number ≠ p.1 := by
          intro hEq
          rw [← hk] at hEq
          exact hnd.1 (hEq ▸ hp1)
        simp [this]
    · simp only [insertGroup, if_neg hk] at hp
      rcases List.mem_cons.mp hp with h1 | h2
      · subst h1
        rw [List.filter_append, ← hgroups (k, g) (List.mem_cons_self _ _)]
        have : c.patent_number ≠ k := fun hEq => hk hEq.symm
        simp [this]
      · refine ih c cs hnd.2 (fun q hq => hgroups q (List.mem_cons_of_mem _ hq)) ?_ p h2
        intro hnot
        apply hmiss
        intro hall
        rcases List.mem_cons.mp hall with h3 | h4
        · exact hk h3.symm
        · exact hnot h4

/-- Unfolding the grouping dict over an appended claim. -/
theorem groupByPatent_append (cs : List ParsedClaim) (c : ParsedClaim) :
    groupByPatent (cs ++ [c]) = insertGroup (groupByPatent cs) c := by
  unfold groupByPatent
  rw [List.foldl_append, List.foldl_cons, List.foldl_nil]

/-- The grouping dict of _insert_claims: its keys are distinct, each group is
exactly the claims of its key in original order, and every claim's patent
number is a key. -/
theorem groupByPatent_spec : ∀ (cs : List ParsedClaim),
    ((groupByPatent cs).map Prod.fst).Nodup ∧
    (∀ p ∈ groupByPatent cs,
      p.2 = cs.filter (fun x => decide (x.patent_number = p.1))) ∧
    (∀ x ∈ cs, x.patent_number ∈ (groupByPatent cs).map Prod.fst) := by
  intro cs
  induction cs using List.reverseRecOn with
  | nil => exact ⟨by simp [groupByPatent], by simp [groupByPatent], by simp⟩
  | append_singleton xs c ih =>
    obtain ⟨hnd, hgroups, hcompl⟩ := ih
    have hmiss : c.patent_number ∉ (groupByPatent xs).map Prod.fst →
        xs.filter (fun x => decide (x.patent_number = c.patent_number)) = [] := by
      intro hnot
      rw [List.filter_eq_nil_iff]
      intro a ha
      simp only [decide_eq_true_eq]
      intro hEq
      exact hnot (hEq ▸ hcompl a ha)
    refine ⟨?_, ?_, ?_⟩
    · rw [groupByPatent_append]
      by_cases hmem : c.patent_number ∈ (groupByPatent xs).map Prod.fst
      · rw [(insertGroup_keys _ c).1 hmem]
        exact hnd
      · rw [(insertGroup_keys _ c).2 hmem]
        rw [List.nodup_append]
        exact ⟨hnd, List.nodup_singleton _,
          fun a ha hb => hmem (by rwa [List.mem_singleton.mp hb] at ha)⟩
    · rw [groupByPatent_append]
      exact insertGroup_groups _ c xs hnd hgroups hmiss
    · intro x hx
      rw [groupByPatent_append]
      rcases List.mem_append.mp hx with h1 | h2
      · have := hcompl x h1
        by_cases hmem : c.patent_number ∈ (groupByPatent xs).map Prod.fst
        · rw [(insertGroup_keys _ c).1 hmem]
          exact this
        · rw [(insertGroup_keys _ c).2 hmem]
          exact List.mem_append_left _ this
      · rw [List.mem_singleton.mp h2]
        by_cases hmem : c.patent_number ∈ (groupByPatent xs).map Prod.fst
        · rw [(insertGroup_keys _ c).1 hmem]
          exact hmem
        · rw [(insertGroup_keys _ c).2 hmem]
          simp


/-- A group whose patent is absent is skipped by the group step. -/
theorem insertClaimGroup_none (st : DB × Nat) (pg : String × List ParsedClaim)
    (hl : lookupPatentId st.1 pg.1 = none) : insertClaimGroup st pg = st := by
  unfold insertClaimGroup
  simp only [hl]

/-- A group whose patent resolves replaces that patent's claims and counts
the group size. -/
theorem insertClaimGroup_some (st : DB × Nat) (pg : String × List ParsedClaim)
    (pid : Nat) (hl : lookupPatentId st.1 pg.1 = some pid) :
    insertClaimGroup st pg =
      ({ patents := st.1.patents,
         claims := st.1.claims.filter (fun r => decide (r.patent_id ≠ pid)) ++
           pg.2.map (fun c =>
             { patent_id := pid, claim_number := c.claim_number,
               claim_text := c.claim_text }),
         citations := st.1.citations, next_id := st.1.next_id },
       st.2 + pg.2.length) := by
  unfold insertClaimGroup
  simp only [hl]

/-- The group step never touches the patents table. -/
theorem insertClaimGroup_patents (st : DB × Nat) (pg : String × List ParsedClaim) :
    (insertClaimGroup st pg).1.patents = st.1.patents := by
  cases hl : lookupPatentId st.1 pg.1 with
  | none => rw [insertClaimGroup_none st pg hl]
  | some pid => rw [insertClaimGroup_some st pg pid hl]

/-- The claims stored by a resolving group step, as one equation. -/
theorem insertClaimGroup_claims (st : DB × Nat) (pg : String × List ParsedClaim)
    (pid : Nat) (hl : lookupPatentId st.1 pg.1 = some pid) :
    (insertClaimGroup st pg).1.claims =
      st.1.claims.filter (fun r => decide (r.patent_id ≠ pid)) ++
        pg.2.map (fun c =>
          { patent_id := pid, claim_number := c.claim_number,
            claim_text := c.claim_text }) := by
  rw [insertClaimGroup_some st pg pid hl]

/-- The claim-group fold never touches the patents table. -/
theorem foldClaimGroups_patents : ∀ (gs : List (String × List ParsedClaim))
    (st : DB × Nat), (List.foldl insertClaimGroup st gs).1.patents = st.1.patents := by
  intro gs
  induction gs with
  | nil =>
    intro st
    rfl
  | cons pg rest ih =>
    intro st
    rw [List.foldl_cons, ih (insertClaimGroup st pg), insertClaimGroup_patents]

/-- Resolving a patent id only depends on the patents table. -/
theorem lookupPatentId_congr (db1 db2 : DB) (pn : String)
    (h : db1.patents = db2.patents) :
    lookupPatentId db1 pn = lookupPatentId db2 pn := by
  unfold lookupPatentId
  rw [h]

/-- Distinct patent numbers resolve to distinct ids when the id column has no
duplicates. -/
theorem lookupPatentId_ne (db : DB) (pn k : String) (pid pid2 : Nat)
    (hnd : (db.patents.map PatentRow.id).Nodup)
    (h1 : lookupPatentId db pn = some pid)
    (h2 : lookupPatentId db k = some pid2)
    (hne : k ≠ pn) : pid2 ≠ pid := by
  unfold lookupPatentId at h1 h2
  obtain ⟨r1, hr1, hid1⟩ := Option.map_eq_some'.mp h1
  obtain ⟨r2, hr2, hid2⟩ := Option.map_eq_some'.mp h2
  have hm1 := List.mem_of_find?_eq_some hr1
  have hm2 := List.mem_of_find?_eq_some hr2
  have hp1 : r1.patent_number = pn := by
    have := List.find?_some hr1
    simpa using this
  have hp2 : r2.patent_number = k := by
    have := List.find?_some hr2
    simpa using this
  intro hEq
  have : r2 = r1 := List.inj_on_of_nodup_map hnd hm2 hm1 (by rw [hid1, hid2, hEq])
  apply hne
  rw [← hp2, this, hp1]

/-- Filtering the target patent's rows out of a replaced-claims list of a
different patent changes nothing. -/
theorem filter_other_patent (old : List ClaimRow) (g : List ParsedClaim)
    (pid pid2 : Nat) (hne : pid2 ≠ pid) :
    (old.filter (fun r => decide (r.patent_id ≠ pid2)) ++
      g.map (fun c =>
        ({ patent_id := pid2, claim_number := c.claim_number,
           claim_text := c.claim_text } : ClaimRow))).filter
      (fun r => decide (r.patent_id = pid)) =
    old.filter (fun r => decide (r.patent_id = pid)) := by
  rw [List.filter_append, List.filter_filter]
  have hmap : (g.map (fun c =>
      ({ patent_id := pid2, claim_number := c.claim_number,
         claim_text := c.claim_text } : ClaimRow))).filter
      (fun r => decide (r.patent_id = pid)) = [] := by
    rw [List.filter_eq_nil_iff]
    intro row hrow
    obtain ⟨c, _, rfl⟩ := List.mem_map.mp hrow
    simp [hne]
  rw [hmap, List.append_nil]
  apply List.filter_congr
  intro r _
  by_cases hr : r.patent_id = pid
  · simp [hr, Ne.symm hne]
  · simp [hr]

/-- Folding groups whose keys all differ from the target patent number never
changes the target patent's stored claims. -/
theorem foldClaimGroups_other : ∀ (gs : List (String × List ParsedClaim))
    (st : DB × Nat) (db : DB) (pn : String) (pid : Nat),
    st.1.patents = db.patents →
    (db.patents.map PatentRow.id).Nodup →
    lookupPatentId db pn = some pid →
    (∀ k ∈ gs.map Prod.fst, k ≠ pn) →
    (List.foldl insertClaimGroup st gs).1.claims.filter
        (fun r => decide (r.patent_id = pid)) =
      st.1.claims.filter (fun r => decide (r.patent_id = pid)) := by
  intro gs
  induction gs with
  | nil =>
    intro st db pn pid _ _ _ _
    rfl
  | cons pg rest ih =>
    intro st db pn pid hpat hnd hlk hkeys
    rw [List.foldl_cons]
    have hkpg : pg.1 ≠ pn := hkeys pg.1 (by simp)
    have hrest : ∀ k ∈ rest.map Prod.fst, k ≠ pn :=
      fun k hk => hkeys k (by simp [hk])
    have hpat2 : (insertClaimGroup st pg).1.patents = db.patents :=
      (insertClaimGroup_patents st pg).trans hpat
    rw [ih (insertClaimGroup st pg) db pn pid hpat2 hnd hlk hrest]
    cases hl : lookupPatentId st.1 pg.1 with
    | none =>
      rw [insertClaimGroup_none st pg hl]
    | some pid2 =>
      have hpid2 : pid2 ≠ pid := by
        refine lookupPatentId_ne db pn pg.1 pid pid2 hnd hlk ?_ hkpg
        rw [← lookupPatentId_congr st.1 db pg.1 hpat]
        exact hl
      rw [insertClaimGroup_claims st pg pid2 hl, filter_other_patent _ _ _ _ hpid2]

/-- Loading claims leaves the patents table unchanged. -/
theorem insert_claims_patents (db : DB) (cs : List ParsedClaim) :
    (_insert_claims db cs).1.patents = db.patents := by
  unfold _insert_claims
  by_cases h : cs = []
  · rw [if_pos h]
  · rw [if_neg h]
    exact foldClaimGroups_patents _ _

/-- One claim load replaces the stored claims of a present patent with
exactly the incoming claims of that patent, in order. -/
theorem insert_claims_filter (db : DB) (cs : List ParsedClaim) (pn : String)
    (pid : Nat)
    (hnd : (db.patents.map PatentRow.id).Nodup)
    (hlk : lookupPatentId db pn = some pid)
    (hne : cs.filter (fun c => decide (c.patent_number = pn)) ≠ []) :
    (_insert_claims db cs).1.claims.filter (fun r => decide (r.patent_id = pid)) =
      (cs.filter (fun c => decide (c.patent_number = pn))).map
        (fun c => { patent_id := pid, claim_number := c.claim_number,
                    claim_text := c.claim_text }) := by
  have hcs : cs ≠ [] := by
    intro h
    subst h
    simp at hne
  unfold _insert_claims
  rw [if_neg hcs]
  obtain ⟨hkeys, hgroups, hcompl⟩ := groupByPatent_spec cs
  have hpnk : pn ∈ (groupByPatent cs).map Prod.fst := by
    obtain ⟨x, hx⟩ := List.exists_mem_of_ne_nil _ hne
    obtain ⟨hxcs, hxpn⟩ := List.mem_filter.mp hx
    have : x.patent_number = pn := by simpa using hxpn
    exact this ▸ hcompl x hxcs
  obtain ⟨p0, hp0mem, hp0fst⟩ := List.mem_map.mp hpnk
  obtain ⟨g, hg⟩ : ∃ g, (pn, g) ∈ groupByPatent cs := by
    obtain ⟨k, g⟩ := p0
    have hk : k = pn := by simpa using hp0fst
    subst hk
    exact ⟨g, hp0mem⟩
  obtain ⟨pre, post, hsplit⟩ := List.append_of_mem hg
  have hgval : g = cs.filter (fun x => decide (x.patent_number = pn)) :=
    hgroups (pn, g) hg
  rw [hsplit, List.foldl_append, List.foldl_cons]
  rw [hsplit, List.map_append, List.map_cons, List.nodup_append] at hkeys
  obtain ⟨hndpre, hndcons, hdisj⟩ := hkeys
  have hpnpost : pn ∉ post.map Prod.fst := by
    have := (List.nodup_cons.mp hndcons).1
    simpa using this
  have hpat1 : (List.foldl insertClaimGroup (db, 0) pre).1.patents = db.patents :=
    foldClaimGroups_patents pre (db, 0)
  have hlk1 : lookupPatentId (List.foldl insertClaimGroup (db, 0) pre).1 pn =
      some pid := by
    rw [lookupPatentId_congr _ db pn hpat1]
    exact hlk
  have hpat2 : (insertClaimGroup (List.foldl insertClaimGroup (db, 0) pre)
      (pn, g)).1.patents = db.patents :=
    (insertClaimGroup_patents _ _).trans hpat1
  rw [foldClaimGroups_other post
    (insertClaimGroup (List.foldl insertClaimGroup (db, 0) pre) (pn, g))
    db pn pid hpat2 hnd hlk
    (fun k hk => fun hEq => hpnpost (hEq ▸ hk))]
  rw [insertClaimGroup_claims _ (pn, g) pid hlk1]
  rw [List.filter_append, List.filter_filter]
  have hdead : ((List.foldl insertClaimGroup (db, 0) pre).1.claims.filter
      (fun a => decide (a.patent_id = pid) && decide (a.patent_id ≠ pid))) = [] := by
    rw [List.filter_eq_nil_iff]
    intro a _
    by_cases ha : a.patent_id = pid
    · simp [ha]
    · simp [ha]
  rw [hdead, List.nil_append]
  rw [List.filter_eq_self.mpr ?keep]
  case keep =>
    intro row hrow
    obtain ⟨c, _, rfl⟩ := List.mem_map.mp hrow
    simp
  rw [hgval]

/-- C4: loading a new claim set for a patent first deletes that patent's
stored claims and then inserts the new set, so after two successive loads
the store holds exactly the second set for that patent: replacement, not
union across loads. -/
theorem c4_claims_replace_across_loads (db : DB) (cs1 cs2 : List ParsedClaim)
    (pn : String) (pid : Nat)
    (hnd : (db.patents.map PatentRow.id).Nodup)
    (hlk : lookupPatentId db pn = some pid)
    (hne : cs2.filter (fun c => decide (c.patent_number = pn)) ≠ []) :
    ((_insert_claims (_insert_claims db cs1).1 cs2).1).claims.filter
        (fun r => decide (r.patent_id = pid)) =
      (cs2.filter (fun c => decide (c.patent_number = pn))).map
        (fun c => { patent_id := pid, claim_number := c.claim_number,
                    claim_text := c.claim_text }) := by
  have hp : (_insert_claims db cs1).1.patents = db.patents :=
    insert_claims_patents db cs1
  have hnd1 : ((_insert_claims db cs1).1.patents.map PatentRow.id).Nodup := by
    rw [hp]
    exact hnd
  have hlk1 : lookupPatentId (_insert_claims db cs1).1 pn = some pid := by
    rw [lookupPatentId_congr _ db pn hp]
    exact hlk
  exact insert_claims_filter (_insert_claims db cs1).1 cs2 pn pid hnd1 hlk1 hne

/-- C4 witness: two successive loads at a concrete one-patent database leave
exactly the second claim set. -/
theorem c4_claims_replace_across_loads_witness :
    (oneRowDB.patents.map PatentRow.id).Nodup ∧
    lookupPatentId oneRowDB "10000000" = some 5 ∧
    ((_insert_claims (_insert_claims oneRowDB [sampleClaim]).1
        [{ patent_number := "10000000", claim_number := 1, claim_text := "y" },
         { patent_number := "10000000", claim_number := 2, claim_text := "z" }]).1).claims.filter
        (fun r => decide (r.patent_id = 5)) =
      [{ patent_id := 5, claim_number := 1, claim_text := "y" },
       { patent_id := 5, claim_number := 2, claim_text := "z" }] := by
  refine ⟨by decide, by decide, ?_⟩
  have h := c4_claims_replace_across_loads oneRowDB [sampleClaim]
    [{ patent_number := "10000000", claim_number := 1, claim_text := "y" },
     { patent_number := "10000000", claim_number := 2, claim_text := "z" }]
    "10000000" 5 (by decide) (by decide) (by decide)
  exact h.trans (by decide)

/-- Reading back a character code below the surrogate range. -/
theorem char_toNat_ofNat (n : Nat) (h : n < 55296) : (Char.ofNat n).toNat = n := by
  simp [Char.ofNat, Char.toNat, Nat.isValidChar, h, Char.ofNatAux, UInt32.toNat,
    BitVec.toNat_ofNatLt]

/-- Lower-casing a character twice equals lower-casing it once. -/
theorem pyToLower_idem (c : Char) : pyToLower (pyToLower c) = pyToLower c := by
  unfold pyToLower
  split
  · next h =>
    have h1 : 65 ≤ c.toNat := of_decide_eq_true ((Bool.and_eq_true _ _).mp h).1
    have h2 : c.toNat ≤ 90 := of_decide_eq_true ((Bool.and_eq_true _ _).mp h).2
    have hv : c.toNat + 32 < 55296 := by omega
    have ht : (Char.ofNat (c.toNat + 32)).toNat = c.toNat + 32 := char_toNat_ofNat _ hv
    have hz : ¬ (Char.ofNat (c.toNat + 32) ≤ 'Z') := by
      intro hle
      have : (Char.ofNat (c.toNat + 32)).toNat ≤ 90 := hle
      omega
    rw [if_neg]
    intro hb
    exact hz (of_decide_eq_true ((Bool.and_eq_true _ _).mp hb).2)
  · rfl

/-- Each character of the substituted text is either kept or turned into a
space. -/
theorem cleanChar_cases (c : Char) : cleanChar c = c ∨ cleanChar c = ' ' := by
  unfold cleanChar
  split
  · exact Or.inl rfl
  · exact Or.inr rfl

/-- Every character of the lower-cased, substituted text is fixed by both
lower-casing and substitution. -/
theorem cleanedText_fix (s : String) :
    ∀ c ∈ cleanedText s, pyToLower c = c ∧ cleanChar c = c := by
  intro c hc
  unfold cleanedText loweredText at hc
  rw [List.map_map] at hc
  obtain ⟨d, _, rfl⟩ := List.mem_map.mp hc
  show pyToLower (cleanChar (pyToLower d)) = cleanChar (pyToLower d) ∧
    cleanChar (cleanChar (pyToLower d)) = cleanChar (pyToLower d)
  rcases cleanChar_cases (pyToLower d) with h | h
  · constructor
    · rw [h, pyToLower_idem]
    · rw [h]
      exact h
  · constructor
    · rw [h]
      decide
    · rw [h]
      decide

/-- Every token produced by the splitter is non-empty, drawn from the input
characters, and free of whitespace. -/
theorem pySplitGo_mem : ∀ (l cur : List Char),
    (∀ c ∈ cur, isPySpace c = false) →
    ∀ t ∈ pySplitGo l cur,
    t ≠ [] ∧ ∀ c ∈ t, (c ∈ l ∨ c ∈ cur) ∧ isPySpace c = false := by
  intro l
  induction l with
  | nil =>
    intro cur hcur t ht
    by_cases hc : cur = []
    · subst hc
      simp [pySplitGo] at ht
    · simp only [pySplitGo, if_neg hc, List.mem_singleton] at ht
      subst ht
      refine ⟨by simpa using hc, fun c hcm => ?_⟩
      have hcc : c ∈ cur := by simpa using hcm
      exact ⟨Or.inr hcc, hcur c hcc⟩
  | cons a as ih =>
    intro cur hcur t ht
    by_cases ha : isPySpace a = true
    · rw [show pySplitGo (a :: as) cur = if cur = [] then pySplitGo as []
          else cur.reverse :: pySplitGo as [] from by simp [pySplitGo, ha]] at ht
      by_cases hc : cur = []
      · rw [if_pos hc] at ht
        obtain ⟨hne, hall⟩ := ih [] (by simp) t ht
        refine ⟨hne, fun c hcm => ?_⟩
        obtain ⟨hor, hsp⟩ := hall c hcm
        rcases hor with h1 | h2
        · exact ⟨Or.inl (List.mem_cons_of_mem _ h1), hsp⟩
        · simp at h2
      · rw [if_neg hc] at ht
        rcases List.mem_cons.mp ht with h1 | h2
        · subst h1
          refine ⟨by simpa using hc, fun c hcm => ?_⟩
          have hcc : c ∈ cur := by simpa using hcm
          exact ⟨Or.inr hcc, hcur c hcc⟩
        · obtain ⟨hne, hall⟩ := ih [] (by simp) t h2
          refine ⟨hne, fun c hcm => ?_⟩
          obtain ⟨hor, hsp⟩ := hall c hcm
          rcases hor with h1 | h2
          · exact ⟨Or.inl (List.mem_cons_of_mem _ h1), hsp⟩
          · simp at h2
    · rw [show pySplitGo (a :: as) cur = pySplitGo as (a :: cur) from by
          simp [pySplitGo, ha]] at ht
      have hcur2 : ∀ c ∈ a :: cur, isPySpace c = false := by
        intro c hcm
        rcases List.mem_cons.mp hcm with h1 | h2
        · subst h1
          simpa using ha
        · exact hcur c h2
      obtain ⟨hne, hall⟩ := ih (a :: cur) hcur2 t ht
      refine ⟨hne, fun c hcm => ?_⟩
      obtain ⟨hor, hsp⟩ := hall c hcm
      refine ⟨?_, hsp⟩
      rcases hor with h1 | h2
      · exact Or.inl (List.mem_cons_of_mem _ h1)
      · rcases List.mem_cons.mp h2 with h3 | h4
        · subst h3
          exact Or.inl (List.mem_cons_self _ _)
        · exact Or.inr h4

/-- Splitting a whitespace-free chunk followed by a remainder accumulates the
chunk. -/
theorem pySplitGo_append : ∀ (t r cur : List Char),
    (∀ c ∈ t, isPySpace c = false) →
    pySplitGo (t ++ r) cur = pySplitGo r (t.reverse ++ cur) := by
  intro t
  induction t with
  | nil =>
    intro r cur _
    simp
  | cons a as ih =>
    intro r cur ht
    have ha : isPySpace a = false := ht a (List.mem_cons_self _ _)
    rw [List.cons_append,
        show pySplitGo (a :: (as ++ r)) cur = pySplitGo (as ++ r) (a :: cur) from by
          simp [pySplitGo, ha],
        ih r (a :: cur) (fun c hc => ht c (List.mem_cons_of_mem _ hc))]
    congr 1
    simp

/-- Unfolding a two-element-or-more intercalation. -/
theorem intercalate_cons₂ {α : Type} (sep : List α) (a b : List α)
    (l : List (List α)) :
    List.intercalate sep (a :: b :: l) =
      a ++ (sep ++ List.intercalate sep (b :: l)) := by
  simp [List.intercalate, List.intersperse]

/-- Splitting a space-joined list of non-empty whitespace-free tokens
recovers exactly the tokens. -/
theorem pySplit_join : ∀ (ks : List (List Char)),
    (∀ t ∈ ks, t ≠ [] ∧ ∀ c ∈ t, isPySpace c = false) →
    pySplitGo (List.intercalate [' '] ks) [] = ks := by
  intro ks
  induction ks with
  | nil =>
    intro _
    simp [List.intercalate, pySplitGo]
  | cons t rest ih =>
    intro h
    obtain ⟨hne, hns⟩ := h t (List.mem_cons_self _ _)
    cases rest with
    | nil =>
      rw [show List.intercalate [' '] [t] = t from by simp [List.intercalate]]
      have happ := pySplitGo_append t [] [] hns
      rw [List.append_nil, List.append_nil] at happ
      rw [happ]
      simp [pySplitGo, hne]
    | cons u rest2 =>
      rw [intercalate_cons₂,
          pySplitGo_append t ([' '] ++ List.intercalate [' '] (u :: rest2)) [] hns,
          List.append_nil]
      rw [show pySplitGo ([' '] ++ List.intercalate [' '] (u :: rest2)) t.reverse =
          t.reverse.reverse :: pySplitGo (List.intercalate [' '] (u :: rest2)) [] from by
        have hrev : t.reverse ≠ [] := by simpa using hne
        have hsp : isPySpace ' ' = true := by decide
        simp [pySplitGo, hrev, hsp]]
      rw [List.reverse_reverse, ih (fun x hx => h x (List.mem_cons_of_mem _ hx))]

/-- A character of an intercalation comes from a token or from the
separator. -/
theorem mem_intercalate_sep {α : Type} (sep : List α) :
    ∀ (l : List (List α)) (c : α), c ∈ List.intercalate sep l →
    (∃ t ∈ l, c ∈ t) ∨ c ∈ sep := by
  intro l
  induction l with
  | nil =>
    intro c hc
    simp [List.intercalate] at hc
  | cons t rest ih =>
    intro c hc
    cases rest with
    | nil =>
      rw [show List.intercalate sep [t] = t from by simp [List.intercalate]] at hc
      exact Or.inl ⟨t, List.mem_cons_self _ _, hc⟩
    | cons u rest2 =>
      rw [intercalate_cons₂] at hc
      rcases List.mem_append.mp hc with h1 | h2
      · exact Or.inl ⟨t, List.mem_cons_self _ _, h1⟩
      · rcases List.mem_append.mp h2 with h3 | h4
        · exact Or.inr h3
        · rcases ih c h4 with ⟨t2, ht2, hct⟩ | h5
          · exact Or.inl ⟨t2, List.mem_cons_of_mem _ ht2, hct⟩
          · exact Or.inr h5

/-- Mapping a function that fixes every member is the identity. -/
theorem map_fix_id {α : Type} (f : α → α) (l : List α) (h : ∀ a ∈ l, f a = a) :
    l.map f = l :=
  (List.map_congr_left h).trans (List.map_id l)

/-- Nothing the deduplication keeps was in the seen set. -/
theorem dedupGo_not_mem_seen : ∀ (l seen : List String) (w : String),
    w ∈ dedupGo seen l → w ∉ seen := by
  intro l
  induction l with
  | nil =>
    intro seen w h
    simp [dedupGo] at h
  | cons a as ih =>
    intro seen w h
    by_cases ha : a ∈ seen
    · rw [show dedupGo seen (a :: as) = dedupGo seen as from by
        simp [dedupGo, ha]] at h
      exact ih seen w h
    · rw [show dedupGo seen (a :: as) = a :: dedupGo (a :: seen) as from by
        simp [dedupGo, ha]] at h
      rcases List.mem_cons.mp h with h1 | h2
      · subst h1
        exact ha
      · intro hw
        exact ih (a :: seen) w h2 (List.mem_cons_of_mem _ hw)

/-- Deduplication yields a list without duplicates. -/
theorem dedupGo_nodup : ∀ (l seen : List String), (dedupGo seen l).Nodup := by
  intro l
  induction l with
  | nil =>
    intro seen
    simp [dedupGo]
  | cons a as ih =>
    intro seen
    by_cases ha : a ∈ seen
    · rw [show dedupGo seen (a :: as) = dedupGo seen as from by simp [dedupGo, ha]]
      exact ih seen
    · rw [show dedupGo seen (a :: as) = a :: dedupGo (a :: seen) as from by
        simp [dedupGo, ha]]
      rw [List.nodup_cons]
      refine ⟨?_, ih (a :: seen)⟩
      intro hmem
      exact dedupGo_not_mem_seen as (a :: seen) a hmem (List.mem_cons_self _ _)

/-- Deduplication keeps a subsequence of its input. -/
theorem dedupGo_sublist : ∀ (l seen : List String), (dedupGo seen l).Sublist l := by
  intro l
  induction l with
  | nil =>
    intro seen
    simp [dedupGo]
  | cons a as ih =>
    intro seen
    by_cases ha : a ∈ seen
    · rw [show dedupGo seen (a :: as) = dedupGo seen as from by simp [dedupGo, ha]]
      exact List.Sublist.cons a (ih seen)
    · rw [show dedupGo seen (a :: as) = a :: dedupGo (a :: seen) as from by
        simp [dedupGo, ha]]
      exact List.Sublist.cons₂ a (ih (a :: seen))

/-- Deduplicating an already-duplicate-free list away from its seen set is
the identity. -/
theorem dedupGo_eq_self : ∀ (l seen : List String), l.Nodup →
    (∀ w ∈ l, w ∉ seen) → dedupGo seen l = l := by
  intro l
  induction l with
  | nil =>
    intro seen _ _
    rfl
  | cons a as ih =>
    intro seen hnd hnm
    have ha : a ∉ seen := hnm a (List.mem_cons_self _ _)
    rw [show dedupGo seen (a :: as) = a :: dedupGo (a :: seen) as from by
      simp [dedupGo, ha]]
    obtain ⟨hana, hnd2⟩ := List.nodup_cons.mp hnd
    rw [ih (a :: seen) hnd2 ?_]
    intro w hw
    intro hmem
    rcases List.mem_cons.mp hmem with h1 | h2
    · subst h1
      exact hana hw
    · exact hnm w (List.mem_cons_of_mem _ hw) h2

/-- Every token the extractor keeps passes the filter and consists of
non-whitespace characters fixed by lower-casing and substitution. -/
theorem keywordList_mem (text : String) (k : Nat) (w : String)
    (hw : w ∈ keywordList text k) :
    (decide (w ∉ stopwords) && decide (3 ≤ w.length)) = true ∧
    w.data ≠ [] ∧
    (∀ c ∈ w.data, isPySpace c = false ∧ pyToLower c = c ∧ cleanChar c = c) := by
  have hw2 : w ∈ dedupGo [] (keywordsOf text) :=
    List.Sublist.mem hw (List.take_sublist _ _)
  have hw3 : w ∈ keywordsOf text := List.Sublist.mem hw2 (dedupGo_sublist _ _)
  obtain ⟨hw4, hp⟩ := List.mem_filter.mp hw3
  refine ⟨hp, ?_⟩
  unfold wordsOf at hw4
  obtain ⟨t, htmem, rfl⟩ := List.mem_map.mp hw4
  obtain ⟨hne, hall⟩ := pySplitGo_mem (cleanedText text) [] (by simp) t htmem
  refine ⟨by simpa using hne, ?_⟩
  intro c hc
  have hc2 : c ∈ t := hc
  obtain ⟨hor, hsp⟩ := hall c hc2
  have hcl : c ∈ cleanedText text := hor.resolve_right (by simp)
  obtain ⟨hfix1, hfix2⟩ := cleanedText_fix text c hcl
  exact ⟨hsp, hfix1, hfix2⟩

/-- Extracting keywords from an already-extracted keyword list returns it
unchanged. -/
theorem keywordList_roundtrip (ks : List String) (k : Nat)
    (hlen : ks.length ≤ k) (hnd : ks.Nodup)
    (hfilter : ∀ w ∈ ks, (decide (w ∉ stopwords) && decide (3 ≤ w.length)) = true)
    (htok : ∀ w ∈ ks, w.data ≠ [] ∧
      ∀ c ∈ w.data, isPySpace c = false ∧ pyToLower c = c ∧ cleanChar c = c) :
    keywordList (joinSpace ks) k = ks := by
  have hfix : ∀ c ∈ List.intercalate [' '] (ks.map String.data),
      pyToLower c = c ∧ cleanChar c = c := by
    intro c hc
    rcases mem_intercalate_sep [' '] (ks.map String.data) c hc with ⟨t, ht, hct⟩ | hsep
    · obtain ⟨w, hwks, rfl⟩ := List.mem_map.mp ht
      obtain ⟨_, hall⟩ := htok w hwks
      obtain ⟨_, h1, h2⟩ := hall c hct
      exact ⟨h1, h2⟩
    · have hc' : c = ' ' := by simpa using hsep
      subst hc'
      exact ⟨by decide, by decide⟩
  have hlow : loweredText (joinSpace ks) =
      List.intercalate [' '] (ks.map String.data) := by
    unfold loweredText
    exact map_fix_id _ _ (fun c hc => (hfix c hc).1)
  have hclean : cleanedText (joinSpace ks) =
      List.intercalate [' '] (ks.map String.data) := by
    unfold cleanedText
    rw [hlow]
    exact map_fix_id _ _ (fun c hc => (hfix c hc).2)
  have hsplit : pySplitGo (cleanedText (joinSpace ks)) [] = ks.map String.data := by
    rw [hclean]
    apply pySplit_join
    intro t ht
    obtain ⟨w, hwks, rfl⟩ := List.mem_map.mp ht
    obtain ⟨hne, hall⟩ := htok w hwks
    exact ⟨hne, fun c hc => (hall c hc).1⟩
  have hwords : wordsOf (joinSpace ks) = ks := by
    unfold wordsOf
    rw [hsplit, List.map_map]
    exact (List.map_congr_left (fun w _ => rfl)).trans (List.map_id ks)
  have hkeywords : keywordsOf (joinSpace ks) = ks := by
    unfold keywordsOf
    rw [hwords]
    exact List.filter_eq_self.mpr hfilter
  unfold keywordList
  rw [hkeywords, dedupGo_eq_self ks [] hnd (by simp), List.take_of_length_le hlen]

/-- C8: extract_keywords is total (the embedding is a function); its result
is the space join of a token list that holds at most max_keywords tokens,
each of length at least 3 and outside the stop-word set, without duplicates
and in first-occurrence order (a subsequence of the filtered word list); the
empty input yields the empty string. -/
theorem c8_extract_keywords_shape (text : String) (max_keywords : Nat) :
    extract_keywords text max_keywords = joinSpace (keywordList text max_keywords) ∧
    (keywordList text max_keywords).length ≤ max_keywords ∧
    (∀ w ∈ keywordList text max_keywords, 3 ≤ w.length ∧ w ∉ stopwords) ∧
    (keywordList text max_keywords).Nodup ∧
    (keywordList text max_keywords).Sublist (keywordsOf text) ∧
    extract_keywords "" max_keywords = "" := by
  refine ⟨rfl, ?_, ?_, ?_, ?_, ?_⟩
  · unfold keywordList
    rw [List.length_take]
    exact min_le_left _ _
  · intro w hw
    obtain ⟨hp, _, _⟩ := keywordList_mem text max_keywords w hw
    obtain ⟨h1, h2⟩ := (Bool.and_eq_true _ _).mp hp
    exact ⟨of_decide_eq_true h2, of_decide_eq_true h1⟩
  · exact List.Nodup.sublist (List.take_sublist _ _) (dedupGo_nodup _ _)
  · exact (List.take_sublist _ _).trans (dedupGo_sublist _ _)
  · show joinSpace (keywordList "" max_keywords) = ""
    unfold keywordList
    rw [show keywordsOf "" = [] from by decide]
    show joinSpace (List.take max_keywords []) = ""
    rw [List.take_nil]
    decide

/-- C9: keyword extraction is idempotent: extracting from the query string
it produced, with the same cap, yields the same query string. -/
theorem c9_extract_keywords_idempotent (text : String) (max_keywords : Nat) :
    extract_keywords (extract_keywords text max_keywords) max_keywords =
      extract_keywords text max_keywords := by
  have hrt : keywordList (joinSpace (keywordList text max_keywords)) max_keywords =
      keywordList text max_keywords := by
    apply keywordList_roundtrip
    · unfold keywordList
      rw [List.length_take]
      exact min_le_left _ _
    · exact List.Nodup.sublist (List.take_sublist _ _) (dedupGo_nodup _ _)
    · intro w hw
      exact (keywordList_mem text max_keywords w hw).1
    · intro w hw
      obtain ⟨_, h2, h3⟩ := keywordList_mem text max_keywords w hw
      exact ⟨h2, h3⟩
  show joinSpace (keywordList (joinSpace (keywordList text max_keywords)) max_keywords) =
    joinSpace (keywordList text max_keywords)
  rw [hrt]

/-- C8 witness at a concrete input string. -/
theorem c8_extract_keywords_shape_witness :
    ("mobile" : String) ∈ keywordList "A mobile device" 10 ∧
    3 ≤ ("mobile" : String).length ∧ ("mobile" : String) ∉ stopwords := by
  refine ⟨by decide, ?_, ?_⟩
  · exact ((c8_extract_keywords_shape "A mobile device" 10).2.2.1 "mobile" (by decide)).1
  · exact ((c8_extract_keywords_shape "A mobile device" 10).2.2.1 "mobile" (by decide)).2
